import Mathlib

/-!
Shallow embedding of the core logic of `src/app.py` (PalAbrazo): the
line-based parser `parse_items`, the duplicate-key normalizer `norm_key`,
the top-up merge loop, the per-row remove handler, and the flashcard
cursor handlers.  Strings are modelled as `List Char`.  Python's
whitespace set is modelled by the ASCII whitespace characters
(space, tab, newline, carriage return, vertical tab, form feed), and
`str.splitlines` by the line boundaries newline, carriage return, and
carriage-return+newline; `str.lower` is modelled as ordinal ASCII
lowercasing, which the spec explicitly allows.
-/

namespace Palabrazo

/-- One flashcard item, `{"front": ..., "back": ...}` in `app.py`. -/
structure Item where
  front : List Char
  back : List Char
deriving DecidableEq, Repr

/-- ASCII whitespace, modelling the character class used by Python's
`str.strip` / `str.split`: space (32), tab (9), newline (10),
carriage return (13), vertical tab (11), form feed (12). -/
def isWS (c : Char) : Bool :=
  c.toNat = 32 || c.toNat = 9 || c.toNat = 10 || c.toNat = 13 ||
    c.toNat = 11 || c.toNat = 12

/-- Remove trailing whitespace (the right half of Python `str.strip`). -/
def dropEndWS (l : List Char) : List Char :=
  ((l.reverse).dropWhile isWS).reverse

/-- Python `str.strip`: remove leading and trailing whitespace. -/
def pyStrip (l : List Char) : List Char :=
  dropEndWS (l.dropWhile isWS)

/-- Ordinal ASCII lowercasing of one character (model of `str.lower`). -/
def lowerChar (c : Char) : Char :=
  if 65 ≤ c.toNat ∧ c.toNat ≤ 90 then Char.ofNat (c.toNat + 32) else c

/-- Model of `str.lower` on a whole string. -/
def pyLower (l : List Char) : List Char :=
  l.map lowerChar

/-- Worker for `splitWs`: `cur` is the current field, reversed; a run of
whitespace closes the field, and an empty field is never emitted. -/
def splitWsGo (cur : List Char) : List Char → List (List Char)
  | [] => if cur.isEmpty then [] else [cur.reverse]
  | c :: rest =>
    if isWS c then
      if cur.isEmpty then splitWsGo [] rest
      else cur.reverse :: splitWsGo [] rest
    else splitWsGo (c :: cur) rest

/-- Python `str.split()` with no separator: split on runs of whitespace,
discarding empty fields. -/
def splitWs (l : List Char) : List (List Char) :=
  splitWsGo [] l

/-- Python `" ".join(...)`: the fields separated by single spaces. -/
def joinSpace : List (List Char) → List Char
  | [] => []
  | [w] => w
  | w :: v :: ws => w ++ ' ' :: joinSpace (v :: ws)

/-- `norm_key` from `app.py`, on a present string:
`" ".join(s.strip().lower().split())`. -/
def norm_key (s : List Char) : List Char :=
  joinSpace (splitWs (pyLower (pyStrip s)))

/-- `norm_key` including the `(s or "")` guard for a null/absent input. -/
def norm_keyOpt (s : Option (List Char)) : List Char :=
  norm_key (s.getD [])

/-- `desired_count_for` from `app.py`. -/
def desired_count_for (generate_type : List Char) : Nat :=
  if generate_type = "Phrases".data then 10 else 20

/-- Worker for `pySplitlines`: accumulate the current line (reversed) and
emit a line at each boundary; a terminator at the very end does not open
a final empty line, matching Python `str.splitlines`. -/
def linesGo (cur : List Char) : List Char → List (List Char)
  | [] => [cur.reverse]
  | '\r' :: '\n' :: rest =>
    cur.reverse :: (match rest with | [] => [] | d :: ds => linesGo [] (d :: ds))
  | '\n' :: rest =>
    cur.reverse :: (match rest with | [] => [] | d :: ds => linesGo [] (d :: ds))
  | '\r' :: rest =>
    cur.reverse :: (match rest with | [] => [] | d :: ds => linesGo [] (d :: ds))
  | c :: rest => linesGo (c :: cur) rest

/-- Model of Python `str.splitlines` (boundaries: `\n`, `\r`, `\r\n`). -/
def pySplitlines (l : List Char) : List (List Char) :=
  match l with
  | [] => []
  | c :: rest => linesGo [] (c :: rest)

/-- The three-character separator `" — "` (space, em dash, space). -/
def emSep : List Char := [' ', '—', ' ']

/-- The two-character line marker `"- "` (dash, space). -/
def marker : List Char := ['-', ' ']

/-- Model of Python `line.split(sep, 1)` combined with the `sep in line`
test: `some (left, right)` splits at the first occurrence of `sep`,
`none` means `sep` does not occur. -/
def splitFirst (sep : List Char) : List Char → Option (List Char × List Char)
  | [] => if sep.isPrefixOf ([] : List Char) then some ([], []) else none
  | c :: rest =>
    if sep.isPrefixOf (c :: rest) then some ([], (c :: rest).drop sep.length)
    else match splitFirst sep rest with
      | some (l, r) => some (c :: l, r)
      | none => none

/-- The body of the `for line in text.splitlines()` loop of `parse_items`:
strip, require the `"- "` marker, drop it, require and split at `" — "`. -/
def parseLine (line : List Char) : Option Item :=
  let l := pyStrip line
  if l.take 2 = marker then
    match splitFirst emSep (l.drop 2) with
    | some (left, right) => some ⟨pyStrip left, pyStrip right⟩
    | none => none
  else none

/-- `parse_items` from `app.py`: the append loop over lines is the
filterMap of `parseLine` over `pySplitlines`. -/
def parse_items (text : List Char) : List Item :=
  (pySplitlines text).filterMap parseLine

/-- The seen-key set seeded from the existing items:
Python `{norm_key(i["front"]) for i in merged if i.get("front")}`;
a list used only through membership, so set semantics are preserved. -/
def seedSeen (existing : List Item) : List (List Char) :=
  (existing.filter (fun i => !i.front.isEmpty)).map (fun i => norm_key i.front)

/-- The `for it in new_items` loop of the top-up handler in `app.py`:
append an incoming item when its key is non-empty and unseen. -/
def topUpLoop (seen : List (List Char)) (acc : List Item) :
    List Item → List Item
  | [] => acc
  | it :: rest =>
    let k := norm_key it.front
    if k ≠ [] ∧ k ∉ seen then topUpLoop (k :: seen) (acc ++ [it]) rest
    else topUpLoop seen acc rest

/-- The whole top-up merge from `app.py` (lines 248-257): copy the existing
list, run the dedup loop, slice to the cap (`merged[:desired_count]`). -/
def reconcile (existing incoming : List Item) (cap : Nat) : List Item :=
  (topUpLoop (seedSeen existing) existing incoming).take cap

/-- `last_meta` in `st.session_state`. -/
structure GenMeta where
  generate_type : List Char
  target_language : List Char
  cefr_level : List Char
  topic : List Char
deriving DecidableEq, Repr

/-- The session-scoped state of `app.py`: `last_items`, `last_meta`,
`card_index`, `show_back`. -/
structure SessionState where
  last_items : List Item
  last_meta : GenMeta
  card_index : Nat
  show_back : Bool
deriving DecidableEq, Repr

/-- The result of an external generator call, as consumed by the action
handlers: the raw text on success, the exception message on failure. -/
abbrev GenResult := Except (List Char) (List Char)

/-- The generate action around the external call (`app.py` lines 142-170):
on an exception, `st.error` + `st.stop()` abort the run before any
session-state write (the returned message is the shown error); on success
the parsed items and fresh meta replace the state and the cursor resets. -/
def runGenerate (s : SessionState) (gen : GenResult) (meta : GenMeta) :
    SessionState × Option (List Char) :=
  match gen with
  | .error e => (s, some ("OpenAI request failed: ".data ++ e))
  | .ok raw =>
    ({ last_items := parse_items raw
       last_meta := meta
       card_index := 0
       show_back := false }, none)

/-- The top-up action around the external call (`app.py` lines 230-261):
on an exception the run aborts with no state write; on success the parsed
items are merged by `reconcile` with the cap for the current type, and
the cursor resets. -/
def runTopUp (s : SessionState) (gen : GenResult) :
    SessionState × Option (List Char) :=
  match gen with
  | .error e => (s, some ("OpenAI request failed: ".data ++ e))
  | .ok raw =>
    ({ s with
       last_items := reconcile s.last_items (parse_items raw)
                       (desired_count_for s.last_meta.generate_type)
       card_index := 0
       show_back := false }, none)

/-- The per-row remove handler (`app.py` lines 281-289):
`updated.pop(i)`, then reset `card_index` and `show_back`. -/
def applyRemove (s : SessionState) (i : Nat) : SessionState :=
  { s with
    last_items := s.last_items.eraseIdx i
    card_index := 0
    show_back := false }

/-- The flashcards-tab index clamp (`app.py` lines 301-308), inside the
non-empty branch: reset `card_index` to 0 only when it is out of range;
`show_back` is not touched here. -/
def flashClamp (s : SessionState) : SessionState :=
  if s.last_items = [] then s
  else if s.last_items.length ≤ s.card_index then { s with card_index := 0 }
  else s

/-- Clicking the visible card face (`app.py` lines 350-352), guarded by a
non-empty list: toggle `show_back`. -/
def fc_card_click (s : SessionState) : SessionState :=
  if s.last_items = [] then s
  else { s with show_back := !s.show_back }

/-- The Flip button (`app.py` lines 365-367), guarded by a non-empty list:
toggle `show_back`. -/
def fc_flip (s : SessionState) : SessionState :=
  if s.last_items = [] then s
  else { s with show_back := !s.show_back }

/-- The Previous button (`app.py` lines 359-362): Python's
`(idx - 1) % total` on signed integers, which is non-negative for a
positive divisor, then `show_back := False`. -/
def fc_prev (s : SessionState) : SessionState :=
  if s.last_items = [] then s
  else
    { s with
      card_index :=
        (((s.card_index : Int) - 1) % (s.last_items.length : Int)).toNat
      show_back := false }

/-- The Next button (`app.py` lines 370-373): `(idx + 1) % total`,
then `show_back := False`. -/
def fc_next (s : SessionState) : SessionState :=
  if s.last_items = [] then s
  else
    { s with
      card_index := (s.card_index + 1) % s.last_items.length
      show_back := false }

/-! ### Spec-side definitions

Second definitions following the words of `spec.md`, used only to be
compared with the definitions above (refinement claims C1, C2, C4). -/

/-- Spec side (§4.1): index of the first occurrence of `sep` in `l`, as
the least position at which `sep` is a prefix of the rest. -/
def findSep (sep l : List Char) : Option Nat :=
  (List.range (l.length + 1)).find? (fun i => sep.isPrefixOf (l.drop i))

/-- Spec side (§4.1): trim the line, keep it only if it starts with the
marker and, after removal of the marker, contains the separator; split at
the first occurrence, trim both halves. -/
def parseSpecLine (line : List Char) : Option Item :=
  let l := pyStrip line
  if l.take 2 = marker then
    match findSep emSep (l.drop 2) with
    | some i =>
      some ⟨pyStrip ((l.drop 2).take i),
            pyStrip ((l.drop 2).drop (i + emSep.length))⟩
    | none => none
  else none

/-- Spec side (§4.1): the parse contract stated from the spec's words. -/
def parseSpec (text : List Char) : List Item :=
  (pySplitlines text).filterMap parseSpecLine

/-- Spec side (§4.2): collapse every maximal run of whitespace characters
to a single ASCII space. -/
def collapseWS : List Char → List Char
  | [] => []
  | [c] => [if isWS c then ' ' else c]
  | c :: d :: rest =>
    if isWS c && isWS d then collapseWS (d :: rest)
    else (if isWS c then ' ' else c) :: collapseWS (d :: rest)

/-- Spec side (§4.2): trim, lowercase, then collapse whitespace runs. -/
def specKey (s : List Char) : List Char :=
  collapseWS (pyLower (pyStrip s))

/-- Spec side (§4.3): keep an incoming item exactly when its key is
non-empty and not already seen, marking accepted keys seen. -/
def dedupe (seen : List (List Char)) : List Item → List Item
  | [] => []
  | it :: rest =>
    let k := norm_key it.front
    if k ≠ [] ∧ k ∉ seen then it :: dedupe (k :: seen) rest
    else dedupe seen rest

/-! ### Shared concrete data for examples and witnesses -/

def itemA : Item := ⟨"a".data, "p".data⟩

def itemB : Item := ⟨"b".data, "q".data⟩

def itemC : Item := ⟨"c".data, "r".data⟩

def exMeta : GenMeta := ⟨"Words".data, "Spanish".data, "B1".data, "rock".data⟩

def exState3 : SessionState := ⟨[itemA, itemB, itemC], exMeta, 0, false⟩

/-! ### Helper lemmas -/

/-- Python's signed `(i - 1) % n` agrees with the natural-number formula
`(i + n - 1) % n` when `n` is positive. -/
theorem prev_index_eq (i n : Nat) (h : 0 < n) :
    (((i : Int) - 1) % (n : Int)).toNat = (i + n - 1) % n := by
  have h1 : ((i : Int) - 1) = ((i + n - 1 : Nat) : Int) + (n : Int) * (-1) := by
    omega
  rw [h1, Int.add_mul_emod_self_left, ← Int.ofNat_emod, Int.toNat_ofNat]

/-- `Char.ofNat` inverts `toNat` on valid code points. -/
theorem toNat_ofNat_of_valid {n : Nat} (h : n.isValidChar) :
    (Char.ofNat n).toNat = n := by
  rw [Char.ofNat, dif_pos h]
  rfl

/-- Lowercasing an upper-case letter lands in the range 97..122. -/
theorem lowerChar_toNat_of_upper (c : Char)
    (h : 65 ≤ c.toNat ∧ c.toNat ≤ 90) :
    (lowerChar c).toNat = c.toNat + 32 := by
  rw [lowerChar, if_pos h]
  exact toNat_ofNat_of_valid (Or.inl (by omega))

/-- A character with code point 33 or above is not whitespace. -/
theorem isWS_eq_false_of_ge (c : Char) (h : 33 ≤ c.toNat) :
    isWS c = false := by
  simp only [isWS, Bool.or_eq_false_iff, decide_eq_false_iff_not]
  omega

/-- Lowercasing is idempotent. -/
theorem lowerChar_idem (c : Char) : lowerChar (lowerChar c) = lowerChar c := by
  by_cases h : 65 ≤ c.toNat ∧ c.toNat ≤ 90
  · have ht := lowerChar_toNat_of_upper c h
    rw [lowerChar, ht, if_neg (by omega)]
  · have hc : lowerChar c = c := by rw [lowerChar, if_neg h]
    rw [hc, hc]

/-- Lowercasing does not change whether a character is whitespace. -/
theorem isWS_lowerChar (c : Char) : isWS (lowerChar c) = isWS c := by
  by_cases h : 65 ≤ c.toNat ∧ c.toNat ≤ 90
  · have ht := lowerChar_toNat_of_upper c h
    rw [isWS_eq_false_of_ge _ (by omega), isWS_eq_false_of_ge _ (by omega)]
  · rw [lowerChar, if_neg h]

/-- A leading whitespace character does not affect `splitWs`. -/
theorem splitWs_cons_ws {c : Char} (h : isWS c = true) (l : List Char) :
    splitWs (c :: l) = splitWs l := by
  simp [splitWs, splitWsGo, h]

/-- Characterization of the split worker on a non-empty current field:
it finishes the field with the next whitespace-free run and restarts. -/
theorem splitWsGo_ne (l : List Char) :
    ∀ cur : List Char, cur ≠ [] →
      splitWsGo cur l =
        (cur.reverse ++ l.takeWhile (fun d => !isWS d)) ::
          splitWs (l.dropWhile (fun d => !isWS d)) := by
  induction l with
  | nil =>
    intro cur hc
    match cur with
    | [] => exact absurd rfl hc
    | a :: cur' => simp [splitWsGo, splitWs]
  | cons c rest ih =>
    intro cur hc
    by_cases h : isWS c
    · match cur with
      | [] => exact absurd rfl hc
      | a :: cur' =>
        simp [splitWsGo, h, splitWs_cons_ws h, List.takeWhile_cons,
          List.dropWhile_cons, splitWs]
    · simp [splitWsGo, h, ih (c :: cur) (List.cons_ne_nil c cur),
        List.takeWhile_cons, List.dropWhile_cons, List.append_assoc]

/-- `splitWs` on a line starting with a non-whitespace character: the
first field is the leading whitespace-free run. -/
theorem splitWs_cons_not_ws {c : Char} (h : isWS c = false) (l : List Char) :
    splitWs (c :: l) =
      (c :: l.takeWhile (fun d => !isWS d)) ::
        splitWs (l.dropWhile (fun d => !isWS d)) := by
  have h1 : splitWs (c :: l) = splitWsGo [c] l := by
    simp [splitWs, splitWsGo, h]
  rw [h1, splitWsGo_ne l [c] (List.cons_ne_nil c [])]
  rfl

/-- Leading whitespace can be discarded before splitting. -/
theorem splitWs_dropWhile (l : List Char) :
    splitWs (l.dropWhile isWS) = splitWs l := by
  induction l with
  | nil => rfl
  | cons c rest ih =>
    by_cases h : isWS c
    · rw [List.dropWhile_cons_of_pos h, ih, splitWs_cons_ws h]
    · rw [List.dropWhile_cons_of_neg (by simp [h])]

/-- Every field produced by the split worker is non-empty, whitespace
free, and drawn from the current field or the remaining input. -/
theorem splitWsGo_words (l : List Char) :
    ∀ cur, (∀ c ∈ cur, isWS c = false) →
      ∀ w ∈ splitWsGo cur l, w ≠ [] ∧
        ∀ c ∈ w, isWS c = false ∧ (c ∈ cur ∨ c ∈ l) := by
  induction l with
  | nil =>
    intro cur hcur w hw
    match cur with
    | [] => simp [splitWsGo] at hw
    | a :: cur' =>
      have hred : splitWsGo (a :: cur') [] = [(a :: cur').reverse] := rfl
      rw [hred, List.mem_singleton] at hw
      subst hw
      refine ⟨by simp, ?_⟩
      intro c hc
      rw [List.mem_reverse] at hc
      exact ⟨hcur c hc, Or.inl hc⟩
  | cons c rest ih =>
    intro cur hcur w hw
    by_cases h : isWS c
    · match cur with
      | [] =>
        have hred : splitWsGo [] (c :: rest) = splitWsGo [] rest := by
          simp [splitWsGo, h]
        rw [hred] at hw
        obtain ⟨hne, hmem⟩ := ih [] (by simp) w hw
        refine ⟨hne, fun d hd => ?_⟩
        obtain ⟨h1, h2⟩ := hmem d hd
        rcases h2 with h2 | h2
        · simp at h2
        · exact ⟨h1, Or.inr (List.mem_cons_of_mem c h2)⟩
      | a :: cur' =>
        have hred : splitWsGo (a :: cur') (c :: rest) =
            (a :: cur').reverse :: splitWsGo [] rest := by
          simp [splitWsGo, h]
        rw [hred, List.mem_cons] at hw
        rcases hw with hw | hw
        · subst hw
          refine ⟨by simp, ?_⟩
          intro d hd
          rw [List.mem_reverse] at hd
          exact ⟨hcur d hd, Or.inl hd⟩
        · obtain ⟨hne, hmem⟩ := ih [] (by simp) w hw
          refine ⟨hne, fun d hd => ?_⟩
          obtain ⟨h1, h2⟩ := hmem d hd
          rcases h2 with h2 | h2
          · simp at h2
          · exact ⟨h1, Or.inr (List.mem_cons_of_mem c h2)⟩
    · have hred : splitWsGo cur (c :: rest) = splitWsGo (c :: cur) rest := by
        simp [splitWsGo, h]
      rw [hred] at hw
      have hcur' : ∀ d ∈ c :: cur, isWS d = false := by
        intro d hd
        rcases List.mem_cons.mp hd with hd | hd
        · subst hd; simpa using h
        · exact hcur d hd
      obtain ⟨hne, hmem⟩ := ih (c :: cur) hcur' w hw
      refine ⟨hne, fun d hd => ?_⟩
      obtain ⟨h1, h2⟩ := hmem d hd
      rcases h2 with h2 | h2
      · rcases List.mem_cons.mp h2 with h2 | h2
        · subst h2; exact ⟨h1, Or.inr (List.mem_cons_self _ _)⟩
        · exact ⟨h1, Or.inl h2⟩
      · exact ⟨h1, Or.inr (List.mem_cons_of_mem c h2)⟩

/-- Every field of `splitWs l` is non-empty, whitespace free, and made of
characters of `l`. -/
theorem splitWs_words (l : List Char) :
    ∀ w ∈ splitWs l, w ≠ [] ∧ ∀ c ∈ w, isWS c = false ∧ c ∈ l := by
  intro w hw
  obtain ⟨hne, hmem⟩ := splitWsGo_words l [] (by simp) w hw
  refine ⟨hne, fun c hc => ?_⟩
  obtain ⟨h1, h2⟩ := hmem c hc
  rcases h2 with h2 | h2
  · simp at h2
  · exact ⟨h1, h2⟩

/-- `dropWhile` is the identity when no element satisfies the test. -/
theorem dropWhile_eq_self_of {p : Char → Bool} {l : List Char}
    (h : ∀ c ∈ l, p c = false) : l.dropWhile p = l := by
  cases l with
  | nil => rfl
  | cons c rest =>
    exact List.dropWhile_cons_of_neg
      (by simp [h c (List.mem_cons_self c rest)])

/-- A non-whitespace head passes through the trailing strip. -/
theorem dropEndWS_cons {c : Char} (h : isWS c = false) (l : List Char) :
    dropEndWS (c :: l) = c :: dropEndWS l := by
  unfold dropEndWS
  rw [List.reverse_cons, List.dropWhile_append]
  by_cases he : (l.reverse.dropWhile isWS).isEmpty
  · rw [if_pos he]
    rw [List.isEmpty_iff] at he
    rw [he, List.dropWhile_cons_of_neg (by simp [h])]
    simp
  · rw [if_neg he]
    simp

/-- The trailing strip distributes over an append whose right part does
not vanish. -/
theorem dropEndWS_append {b : List Char} (h : dropEndWS b ≠ [])
    (a : List Char) : dropEndWS (a ++ b) = a ++ dropEndWS b := by
  unfold dropEndWS at h ⊢
  rw [List.reverse_append, List.dropWhile_append]
  have he : (b.reverse.dropWhile isWS).isEmpty = false := by
    rcases hb : b.reverse.dropWhile isWS with _ | ⟨x, xs⟩
    · rw [hb] at h; simp at h
    · rfl
  rw [he]
  simp

/-- An all-whitespace suffix is erased by the trailing strip. -/
theorem dropEndWS_append_ws {r : List Char} (h : ∀ c ∈ r, isWS c = true)
    (t : List Char) : dropEndWS (t ++ r) = dropEndWS t := by
  unfold dropEndWS
  rw [List.reverse_append, List.dropWhile_append]
  have he : (r.reverse.dropWhile isWS).isEmpty = true := by
    rw [List.isEmpty_iff, List.dropWhile_eq_nil_iff]
    intro x hx
    exact h x (List.mem_reverse.mp hx)
  rw [if_pos he]

/-- The trailing strip is the identity on whitespace-free input. -/
theorem dropEndWS_eq_self {t : List Char} (h : ∀ c ∈ t, isWS c = false) :
    dropEndWS t = t := by
  unfold dropEndWS
  rw [dropWhile_eq_self_of (fun c hc => h c (List.mem_reverse.mp hc)),
    List.reverse_reverse]

/-- A non-whitespace head passes through the run collapse. -/
theorem collapseWS_cons {c : Char} (h : isWS c = false) (m : List Char) :
    collapseWS (c :: m) = c :: collapseWS m := by
  cases m with
  | nil => simp [collapseWS, h]
  | cons d rest => simp [collapseWS, h]

/-- The run collapse passes over a whitespace-free block unchanged. -/
theorem collapseWS_append {w : List Char} (h : ∀ c ∈ w, isWS c = false)
    (rest : List Char) : collapseWS (w ++ rest) = w ++ collapseWS rest := by
  induction w with
  | nil => rfl
  | cons c w' ih =>
    rw [List.cons_append, collapseWS_cons (h c (List.mem_cons_self c w'))]
    rw [ih (fun d hd => h d (List.mem_cons_of_mem c hd))]
    rfl

/-- The run collapse is the identity on whitespace-free input. -/
theorem collapseWS_eq_self {w : List Char} (h : ∀ c ∈ w, isWS c = false) :
    collapseWS w = w := by
  induction w with
  | nil => rfl
  | cons c w' ih =>
    rw [collapseWS_cons (h c (List.mem_cons_self c w')),
      ih (fun d hd => h d (List.mem_cons_of_mem c hd))]

/-- A non-empty whitespace run followed by a non-whitespace character
collapses to a single ASCII space. -/
theorem collapseWS_ws_run {u : List Char} (hu : ∀ c ∈ u, isWS c = true)
    (hne : u ≠ []) {x : Char} (hx : isWS x = false) (r : List Char) :
    collapseWS (u ++ x :: r) = ' ' :: collapseWS (x :: r) := by
  induction u with
  | nil => exact absurd rfl hne
  | cons d u' ih =>
    have hd : isWS d = true := hu d (List.mem_cons_self d u')
    cases u' with
    | nil =>
      show collapseWS (d :: x :: r) = ' ' :: collapseWS (x :: r)
      simp [collapseWS, hd, hx]
    | cons e u'' =>
      have he : isWS e = true :=
        hu e (List.mem_cons_of_mem d (List.mem_cons_self e u''))
      have h1 : collapseWS (d :: e :: (u'' ++ x :: r)) =
          collapseWS (e :: (u'' ++ x :: r)) := by
        simp [collapseWS, hd, he]
      show collapseWS (d :: e :: (u'' ++ x :: r)) = ' ' :: collapseWS (x :: r)
      rw [h1]
      exact ih (fun c hc => hu c (List.mem_cons_of_mem d hc))
        (List.cons_ne_nil e u'')

/-- Main equivalence behind C4, by strong induction on the length: on
input with a non-whitespace head, joining the whitespace split with
single spaces equals collapsing whitespace runs after the trailing
strip. -/
theorem joinSpace_splitWs_aux :
    ∀ n, ∀ l : List Char, l.length ≤ n →
      (∀ c, l.head? = some c → isWS c = false) →
      joinSpace (splitWs l) = collapseWS (dropEndWS l) := by
  intro n
  induction n with
  | zero =>
    intro l hl _
    have h0 : l = [] := List.eq_nil_of_length_eq_zero (Nat.le_zero.mp hl)
    subst h0
    rfl
  | succ n ih =>
    intro l hl hhead
    match l with
    | [] => rfl
    | c :: rest =>
      have hc : isWS c = false := hhead c rfl
      have hrest : rest.takeWhile (fun d => !isWS d) ++
          rest.dropWhile (fun d => !isWS d) = rest :=
        List.takeWhile_append_dropWhile _ rest
      have htw : ∀ d ∈ rest.takeWhile (fun d => !isWS d), isWS d = false := by
        intro d hd
        have h1 := List.mem_takeWhile_imp hd
        simpa using h1
      rw [splitWs_cons_not_ws hc, dropEndWS_cons hc]
      rcases hrd : (rest.dropWhile (fun d => !isWS d)).dropWhile isWS
        with _ | ⟨x, rs⟩
      · have hrws : ∀ d ∈ rest.dropWhile (fun d => !isWS d),
            isWS d = true := List.dropWhile_eq_nil_iff.mp hrd
        have hsr : splitWs (rest.dropWhile (fun d => !isWS d)) = [] := by
          rw [← splitWs_dropWhile (rest.dropWhile (fun d => !isWS d)), hrd]
          rfl
        have hde : dropEndWS rest = rest.takeWhile (fun d => !isWS d) := by
          conv in dropEndWS rest => rw [← hrest]
          rw [dropEndWS_append_ws hrws, dropEndWS_eq_self htw]
        rw [hsr, hde]
        show (c :: rest.takeWhile (fun d => !isWS d)) = _
        rw [collapseWS_eq_self]
        intro d hd
        rcases List.mem_cons.mp hd with hd | hd
        · subst hd; exact hc
        · exact htw d hd
      · have hx : isWS x = false := by
          have h0 := List.head?_dropWhile_not isWS
            (rest.dropWhile (fun d => !isWS d))
          rw [hrd] at h0
          exact h0
        have hu : (rest.dropWhile (fun d => !isWS d)).takeWhile isWS ++
            (x :: rs) = rest.dropWhile (fun d => !isWS d) := by
          rw [← hrd]
          exact List.takeWhile_append_dropWhile isWS _
        have huws : ∀ d ∈ (rest.dropWhile (fun d => !isWS d)).takeWhile isWS,
            isWS d = true := fun d hd => List.mem_takeWhile_imp hd
        have hune : (rest.dropWhile (fun d => !isWS d)).takeWhile isWS
            ≠ [] := by
          intro h0
          rw [h0, List.nil_append] at hu
          have h1 := List.head?_dropWhile_not (fun d => !isWS d) rest
          rw [← hu] at h1
          simp only [List.head?_cons] at h1
          rw [hx] at h1
          simp at h1
        have hsxrs : splitWs (rest.dropWhile (fun d => !isWS d)) =
            splitWs (x :: rs) := by
          rw [← splitWs_dropWhile (rest.dropWhile (fun d => !isWS d)), hrd]
        have hdx : dropEndWS (x :: rs) ≠ [] := by
          rw [dropEndWS_cons hx]
          simp
        have hd1 : dropEndWS
            ((rest.dropWhile (fun d => !isWS d)).takeWhile isWS ++
              (x :: rs)) =
            (rest.dropWhile (fun d => !isWS d)).takeWhile isWS ++
              dropEndWS (x :: rs) :=
          dropEndWS_append hdx _
        have hd2 : dropEndWS
            ((rest.dropWhile (fun d => !isWS d)).takeWhile isWS ++
              (x :: rs)) ≠ [] := by
          rw [hd1]
          intro h0
          rcases List.append_eq_nil.mp h0 with ⟨-, h2⟩
          exact hdx h2
        have hder : dropEndWS rest =
            rest.takeWhile (fun d => !isWS d) ++
              ((rest.dropWhile (fun d => !isWS d)).takeWhile isWS ++
                dropEndWS (x :: rs)) := by
          conv in dropEndWS rest => rw [← hrest, ← hu]
          rw [dropEndWS_append hd2, hd1]
        have hlenrest : rest.length =
            (rest.takeWhile (fun d => !isWS d)).length +
              (((rest.dropWhile (fun d => !isWS d)).takeWhile isWS).length +
                (x :: rs).length) := by
          conv_lhs => rw [← hrest, ← hu]
          simp [List.length_append]
        have hlen : (x :: rs).length ≤ n := by
          have hl' : rest.length + 1 ≤ n + 1 := by simpa using hl
          omega
        have hIH := ih (x :: rs) hlen (by
          intro c' h'
          simp only [List.head?_cons, Option.some_inj] at h'
          subst h'
          exact hx)
        obtain ⟨w2, ws2, hw⟩ : ∃ w2 ws2, splitWs (x :: rs) = w2 :: ws2 :=
          ⟨_, _, splitWs_cons_not_ws hx rs⟩
        rw [hsxrs, hw]
        show (c :: rest.takeWhile (fun d => !isWS d)) ++
          ' ' :: joinSpace (w2 :: ws2) = _
        rw [← hw, hIH, hder]
        show (c :: rest.takeWhile (fun d => !isWS d)) ++
            ' ' :: collapseWS (dropEndWS (x :: rs)) =
          collapseWS ((c :: rest.takeWhile (fun d => !isWS d)) ++
            ((rest.dropWhile (fun d => !isWS d)).takeWhile isWS ++
              dropEndWS (x :: rs)))
        rw [collapseWS_append (by
          intro d hd
          rcases List.mem_cons.mp hd with hd | hd
          · subst hd; exact hc
          · exact htw d hd)]
        rw [dropEndWS_cons hx, collapseWS_ws_run huws hune hx,
          ← dropEndWS_cons hx]

/-- Joining the whitespace split with single spaces equals collapsing
whitespace runs after a full strip. -/
theorem joinSpace_splitWs (l : List Char) :
    joinSpace (splitWs l) = collapseWS (pyStrip l) := by
  unfold pyStrip
  rw [← splitWs_dropWhile l]
  refine joinSpace_splitWs_aux (l.dropWhile isWS).length _ (Nat.le_refl _) ?_
  intro c hc
  have h0 := List.head?_dropWhile_not isWS l
  rw [hc] at h0
  exact h0

/-- `dropWhile` is idempotent. -/
theorem dropWhile_idem (p : Char → Bool) (l : List Char) :
    (l.dropWhile p).dropWhile p = l.dropWhile p := by
  cases hh : l.dropWhile p with
  | nil => rfl
  | cons d z =>
    have h2 := List.head?_dropWhile_not p l
    rw [hh] at h2
    simp only [List.head?_cons] at h2
    have h3 : p d = false := h2
    exact List.dropWhile_cons_of_neg (by simp [h3])

/-- The trailing strip is idempotent. -/
theorem dropEndWS_idem (z : List Char) :
    dropEndWS (dropEndWS z) = dropEndWS z := by
  unfold dropEndWS
  rw [List.reverse_reverse, dropWhile_idem]

/-- The trailing strip yields a front portion of its input. -/
theorem dropEndWS_append_exists (m : List Char) :
    ∃ q, dropEndWS m ++ q = m := by
  obtain ⟨t, ht⟩ : ∃ t, t ++ m.reverse.dropWhile isWS = m.reverse :=
    List.dropWhile_suffix isWS
  refine ⟨t.reverse, ?_⟩
  have h2 := congrArg List.reverse ht
  rw [List.reverse_append, List.reverse_reverse] at h2
  exact h2

/-- A stripped string has no leading whitespace left. -/
theorem pyStrip_no_lead (l : List Char) :
    (pyStrip l).dropWhile isWS = pyStrip l := by
  unfold pyStrip
  obtain ⟨q, hq⟩ := dropEndWS_append_exists (l.dropWhile isWS)
  cases hh : dropEndWS (l.dropWhile isWS) with
  | nil => rfl
  | cons d z =>
    rw [hh] at hq
    have h1 : (l.dropWhile isWS).head? = some d := by
      rw [← hq]; rfl
    have h2 := List.head?_dropWhile_not isWS l
    rw [h1] at h2
    have h3 : isWS d = false := h2
    exact List.dropWhile_cons_of_neg (by simp [h3])

/-- Stripping is idempotent. -/
theorem pyStrip_idem (l : List Char) : pyStrip (pyStrip l) = pyStrip l := by
  show dropEndWS ((pyStrip l).dropWhile isWS) = pyStrip l
  rw [pyStrip_no_lead]
  unfold pyStrip
  exact dropEndWS_idem _

/-- Stripping commutes with lowercasing. -/
theorem pyStrip_pyLower (t : List Char) :
    pyStrip (pyLower t) = pyLower (pyStrip t) := by
  have hf : (isWS ∘ lowerChar) = isWS := funext isWS_lowerChar
  unfold pyStrip dropEndWS pyLower
  rw [List.dropWhile_map, hf, ← List.map_reverse, List.dropWhile_map, hf,
    ← List.map_reverse]

/-- The source normalizer agrees with the spec's trim, lowercase,
collapse description. -/
theorem norm_key_eq_specKey (s : List Char) : norm_key s = specKey s := by
  unfold norm_key specKey
  rw [joinSpace_splitWs, pyStrip_pyLower, pyStrip_idem]

/-- A join of non-empty whitespace-free fields is itself non-empty when
the field list is. -/
theorem joinSpace_ne_nil {v : List Char} (hv : v ≠ []) (ws : List (List Char)) :
    joinSpace (v :: ws) ≠ [] := by
  cases ws with
  | nil => exact hv
  | cons u ws' =>
    show v ++ ' ' :: joinSpace (u :: ws') ≠ []
    simp

/-- A join of non-empty whitespace-free fields has no leading
whitespace. -/
theorem dropWhile_joinSpace {ws : List (List Char)}
    (h : ∀ w ∈ ws, w ≠ [] ∧ ∀ c ∈ w, isWS c = false) :
    (joinSpace ws).dropWhile isWS = joinSpace ws := by
  cases ws with
  | nil => rfl
  | cons w ws' =>
    obtain ⟨hne, hnws⟩ := h w (List.mem_cons_self w ws')
    match w, hne with
    | a :: w₀, _ =>
      have ha : isWS a = false := hnws a (List.mem_cons_self a w₀)
      cases ws' with
      | nil => exact List.dropWhile_cons_of_neg (by simp [ha])
      | cons v ws'' =>
        show ((a :: w₀) ++ ' ' :: joinSpace (v :: ws'')).dropWhile isWS = _
        rw [List.cons_append]
        exact List.dropWhile_cons_of_neg (by simp [ha])

/-- A join of non-empty whitespace-free fields has no trailing
whitespace. -/
theorem dropEndWS_joinSpace {ws : List (List Char)}
    (h : ∀ w ∈ ws, w ≠ [] ∧ ∀ c ∈ w, isWS c = false) :
    dropEndWS (joinSpace ws) = joinSpace ws := by
  induction ws with
  | nil => rfl
  | cons w ws' ih =>
    obtain ⟨hne, hnws⟩ := h w (List.mem_cons_self w ws')
    cases ws' with
    | nil => exact dropEndWS_eq_self hnws
    | cons v ws'' =>
      have hgood : ∀ u ∈ v :: ws'', u ≠ [] ∧ ∀ c ∈ u, isWS c = false :=
        fun u hu => h u (List.mem_cons_of_mem w hu)
      have hvne : v ≠ [] := (hgood v (List.mem_cons_self v ws'')).1
      have hJne : joinSpace (v :: ws'') ≠ [] := joinSpace_ne_nil hvne ws''
      have hdJ : dropEndWS (joinSpace (v :: ws'')) ≠ [] := by
        rw [ih hgood]; exact hJne
      show dropEndWS (w ++ ' ' :: joinSpace (v :: ws'')) = _
      have h1 : dropEndWS (' ' :: joinSpace (v :: ws'')) =
          ' ' :: joinSpace (v :: ws'') := by
        have h2 : dropEndWS ([' '] ++ joinSpace (v :: ws'')) =
            [' '] ++ dropEndWS (joinSpace (v :: ws'')) :=
          dropEndWS_append hdJ [' ']
        rw [List.singleton_append] at h2
        rw [h2, ih hgood]
        rfl
      have h3 : dropEndWS (' ' :: joinSpace (v :: ws'')) ≠ [] := by
        rw [h1]; simp
      rw [dropEndWS_append h3, h1]
      rfl

/-- Splitting a join of non-empty whitespace-free fields recovers the
fields. -/
theorem splitWs_joinSpace {ws : List (List Char)}
    (h : ∀ w ∈ ws, w ≠ [] ∧ ∀ c ∈ w, isWS c = false) :
    splitWs (joinSpace ws) = ws := by
  induction ws with
  | nil => rfl
  | cons w ws' ih =>
    obtain ⟨hne, hnws⟩ := h w (List.mem_cons_self w ws')
    match w, hne, hnws with
    | a :: w₀, _, hnws =>
      have ha : isWS a = false := hnws a (List.mem_cons_self a w₀)
      have hw₀ : ∀ c ∈ w₀, (fun d => !isWS d) c = true := by
        intro c hc
        simp [hnws c (List.mem_cons_of_mem a hc)]
      cases ws' with
      | nil =>
        show splitWs (a :: w₀) = [a :: w₀]
        rw [splitWs_cons_not_ws ha]
        have ht : w₀.takeWhile (fun d => !isWS d) = w₀ := by
          have h2 : (w₀ ++ ([] : List Char)).takeWhile (fun d => !isWS d) =
              w₀ ++ ([] : List Char).takeWhile (fun d => !isWS d) :=
            List.takeWhile_append_of_pos hw₀
          simpa using h2
        have hd : w₀.dropWhile (fun d => !isWS d) = [] := by
          rw [List.dropWhile_eq_nil_iff]
          exact hw₀
        rw [ht, hd]
        rfl
      | cons v ws'' =>
        have hgood : ∀ u ∈ v :: ws'', u ≠ [] ∧ ∀ c ∈ u, isWS c = false :=
          fun u hu => h u (List.mem_cons_of_mem _ hu)
        show splitWs ((a :: w₀) ++ ' ' :: joinSpace (v :: ws'')) = _
        rw [List.cons_append, splitWs_cons_not_ws ha]
        rw [List.takeWhile_append_of_pos hw₀,
          List.takeWhile_cons_of_neg (by decide),
          List.dropWhile_append_of_pos hw₀,
          List.dropWhile_cons_of_neg (by decide)]
        rw [List.append_nil, splitWs_cons_ws (by decide), ih hgood]

/-- Lowercasing fixes a string all of whose characters it fixes. -/
theorem pyLower_eq_self {z : List Char} (h : ∀ c ∈ z, lowerChar c = c) :
    pyLower z = z := by
  induction z with
  | nil => rfl
  | cons c z' ih =>
    show lowerChar c :: pyLower z' = c :: z'
    rw [h c (List.mem_cons_self c z'),
      ih (fun d hd => h d (List.mem_cons_of_mem c hd))]

/-- A character of a join is a field character or the separator space. -/
theorem mem_joinSpace {c : Char} :
    ∀ {ws : List (List Char)}, c ∈ joinSpace ws →
      (∃ w ∈ ws, c ∈ w) ∨ c = ' ' := by
  intro ws
  induction ws with
  | nil => intro hc; simp [joinSpace] at hc
  | cons w ws' ih =>
    intro hc
    cases ws' with
    | nil => exact Or.inl ⟨w, List.mem_cons_self w [], hc⟩
    | cons v ws'' =>
      rw [show joinSpace (w :: v :: ws'') =
        w ++ ' ' :: joinSpace (v :: ws'') from rfl] at hc
      rcases List.mem_append.mp hc with hc | hc
      · exact Or.inl ⟨w, List.mem_cons_self w _, hc⟩
      · rcases List.mem_cons.mp hc with hc | hc
        · exact Or.inr hc
        · rcases ih hc with ⟨u, hu, hcu⟩ | hsp
          · exact Or.inl ⟨u, List.mem_cons_of_mem w hu, hcu⟩
          · exact Or.inr hsp

/-- Every character of a lowered string is fixed by lowercasing. -/
theorem mem_pyLower_fixed {z c} (hc : c ∈ pyLower z) : lowerChar c = c := by
  obtain ⟨d, -, hd⟩ := List.mem_map.mp hc
  rw [← hd]
  exact lowerChar_idem d

/-- The normalizer is idempotent. -/
theorem norm_key_idem (s : List Char) :
    norm_key (norm_key s) = norm_key s := by
  have hgood : ∀ w ∈ splitWs (pyLower (pyStrip s)), w ≠ [] ∧
      ∀ c ∈ w, isWS c = false :=
    fun w hw => ⟨(splitWs_words _ w hw).1,
      fun c hc => ((splitWs_words _ w hw).2 c hc).1⟩
  have hfix : ∀ w ∈ splitWs (pyLower (pyStrip s)), ∀ c ∈ w,
      lowerChar c = c := by
    intro w hw c hc
    exact mem_pyLower_fixed ((splitWs_words _ w hw).2 c hc).2
  show norm_key (joinSpace (splitWs (pyLower (pyStrip s)))) =
    joinSpace (splitWs (pyLower (pyStrip s)))
  generalize hws : splitWs (pyLower (pyStrip s)) = ws at hgood hfix
  unfold norm_key
  have h1 : pyStrip (joinSpace ws) = joinSpace ws := by
    unfold pyStrip
    rw [dropWhile_joinSpace hgood, dropEndWS_joinSpace hgood]
  rw [h1, pyLower_eq_self (by
    intro c hc
    rcases mem_joinSpace hc with ⟨w, hw, hcw⟩ | hsp
    · exact hfix w hw c hcw
    · subst hsp; decide)]
  rw [splitWs_joinSpace hgood]

/-- Base case of the first-occurrence search. -/
theorem findSep_nil (sep : List Char) :
    findSep sep [] = if sep.isPrefixOf ([] : List Char) then some 0
      else none := by
  unfold findSep
  by_cases h : sep.isPrefixOf ([] : List Char) <;> simp [h]

/-- Recurrence of the first-occurrence search: an occurrence at the head,
or one position later. -/
theorem findSep_cons (sep : List Char) (c : Char) (rest : List Char) :
    findSep sep (c :: rest) =
      if sep.isPrefixOf (c :: rest) then some 0
      else (findSep sep rest).map (· + 1) := by
  unfold findSep
  rw [List.length_cons, List.range_succ_eq_map, List.find?_cons]
  by_cases h : sep.isPrefixOf (c :: rest)
  · have h0 : sep.isPrefixOf ((c :: rest).drop 0) = true := h
    simp [h0, h]
  · have h0 : sep.isPrefixOf ((c :: rest).drop 0) = false := by
      simp [h]
    rw [h0]
    simp only [if_neg h, List.find?_map]
    have hc : ((fun i => sep.isPrefixOf ((c :: rest).drop i)) ∘ Nat.succ) =
        (fun i => sep.isPrefixOf (rest.drop i)) := by
      funext i; rfl
    rw [hc]

/-- The source's one-pass first split agrees with the spec's
least-index-of-occurrence description. -/
theorem splitFirst_eq_findSep (sep : List Char) (l : List Char) :
    splitFirst sep l =
      (findSep sep l).map
        (fun i => (l.take i, l.drop (i + sep.length))) := by
  induction l with
  | nil =>
    rw [findSep_nil]
    by_cases h : sep.isPrefixOf ([] : List Char) <;>
      simp [splitFirst, h]
  | cons c rest ih =>
    rw [findSep_cons]
    by_cases h : sep.isPrefixOf (c :: rest)
    · simp [splitFirst, h]
    · simp only [splitFirst, if_neg h, ih]
      cases hf : findSep sep rest with
      | none => rfl
      | some i =>
        simp only [Option.map_some']
        rw [List.take_succ_cons,
          show i + 1 + sep.length = i + sep.length + 1 by omega,
          List.drop_succ_cons]

/-- Each line is handled identically by the source parser and the
spec-side description. -/
theorem parseLine_eq_spec (line : List Char) :
    parseLine line = parseSpecLine line := by
  unfold parseLine parseSpecLine
  simp only [splitFirst_eq_findSep]
  by_cases h : (pyStrip line).take 2 = marker
  · simp only [if_pos h]
    cases hf : findSep emSep ((pyStrip line).drop 2) with
    | none => rfl
    | some i => rfl
  · simp only [if_neg h]

/-- The append loop of the top-up merge is the existing list followed by
the spec-side deduplicating filter of the incoming list. -/
theorem topUpLoop_eq_append (inc : List Item) :
    ∀ seen acc, topUpLoop seen acc inc = acc ++ dedupe seen inc := by
  induction inc with
  | nil => intro seen acc; simp [topUpLoop, dedupe]
  | cons it rest ih =>
    intro seen acc
    simp only [topUpLoop, dedupe]
    split
    · rw [ih]; simp
    · exact ih seen acc

/-- The keys of the accepted incoming items are pairwise distinct,
non-empty, and absent from the seen-set. -/
theorem dedupe_keys (inc : List Item) :
    ∀ seen,
      (((dedupe seen inc).map (fun i => norm_key i.front)).Nodup) ∧
      (∀ k ∈ (dedupe seen inc).map (fun i => norm_key i.front),
        k ∉ seen ∧ k ≠ []) := by
  induction inc with
  | nil => intro seen; simp [dedupe]
  | cons it rest ih =>
    intro seen
    simp only [dedupe]
    split
    · next hcond =>
      obtain ⟨hnd, hmem⟩ := ih (norm_key it.front :: seen)
      refine ⟨?_, ?_⟩
      · rw [List.map_cons, List.nodup_cons]
        refine ⟨fun hk => ?_, hnd⟩
        exact (hmem _ hk).1 (List.mem_cons_self _ _)
      · intro k hk
        rw [List.map_cons, List.mem_cons] at hk
        rcases hk with hk | hk
        · subst hk; exact ⟨hcond.2, hcond.1⟩
        · have h1 := hmem _ hk
          exact ⟨fun hs => h1.1 (List.mem_cons_of_mem _ hs), h1.2⟩
    · exact ih seen

/-- Every accepted incoming item has a non-empty front (its key is
non-empty, and an empty front has an empty key). -/
theorem dedupe_front_ne (inc : List Item) :
    ∀ seen it, it ∈ dedupe seen inc → it.front ≠ [] := by
  induction inc with
  | nil => intro seen it h; simp [dedupe] at h
  | cons hd rest ih =>
    intro seen it h
    simp only [dedupe] at h
    revert h
    split
    · next hcond =>
      intro h
      rcases List.mem_cons.mp h with h | h
      · subst h
        intro he
        exact hcond.1 (by rw [he]; rfl)
      · exact ih _ _ h
    · exact ih seen it

/-! ### Claim theorems -/

/-- C1: for every input string the parser returns exactly the items
described by the spec: split into lines, trim, keep lines starting with
the "- " marker whose rest contains the " — " separator, split at the
first occurrence, trim both halves; order follows line order and every
failing line contributes no item. -/
theorem c1_parse_eq_spec (text : List Char) :
    parse_items text = parseSpec text := by
  unfold parse_items parseSpec
  rw [funext parseLine_eq_spec]

/-- C9: the parser is total and validates nothing beyond the two tests: a
kept line whose front trims to the empty string still yields an item with
empty front, and when no line passes the tests the result is the empty
list rather than an error. -/
theorem c9_parse_tolerant (text : List Char)
    (h : ∀ line ∈ pySplitlines text, parseLine line = none) :
    parse_items text = [] ∧
    parse_items "-  — hello".data = [Item.mk [] "hello".data] ∧
    parse_items "no items here\nat all".data = [] := by
  refine ⟨?_, by decide, by decide⟩
  exact List.filterMap_eq_nil_iff.mpr h

/-- Witness for C9 at a concrete ill-formed input. -/
theorem c9_parse_tolerant_witness :
    (∀ line ∈ pySplitlines "no items here\nat all".data,
      parseLine line = none) ∧
    (parse_items "no items here\nat all".data = [] ∧
    parse_items "-  — hello".data = [Item.mk [] "hello".data] ∧
    parse_items "no items here\nat all".data = []) :=
  ⟨by decide, c9_parse_tolerant "no items here\nat all".data (by decide)⟩

/-- C2: the top-up merge accepts an incoming item exactly when its key is
non-empty and seen neither among the non-empty-front existing items nor
among earlier accepted items (the merge equals existing ++ dedupe); if
the existing non-empty-front keys have no duplicate, neither do those of
the result; and in the §8 example the case-insensitive duplicate is
dropped while the fresh item is appended. -/
theorem c2_merge_dedup (existing incoming : List Item) (cap : Nat) :
    topUpLoop (seedSeen existing) existing incoming =
      existing ++ dedupe (seedSeen existing) incoming ∧
    ((((existing.filter (fun i => !i.front.isEmpty)).map
        (fun i => norm_key i.front)).Nodup) →
      (((reconcile existing incoming cap).filter
          (fun i => !i.front.isEmpty)).map
        (fun i => norm_key i.front)).Nodup) ∧
    reconcile [⟨"hola".data, "hello".data⟩]
        [⟨"Hola".data, "dup".data⟩, ⟨"adios".data, "bye".data⟩] 20 =
      [⟨"hola".data, "hello".data⟩, ⟨"adios".data, "bye".data⟩] := by
  refine ⟨topUpLoop_eq_append .., ?_, by decide⟩
  intro hnd
  set d := dedupe (seedSeen existing) incoming with hd
  have hfull :
      (((existing ++ d).filter (fun i => !i.front.isEmpty)).map
        (fun i => norm_key i.front)).Nodup := by
    rw [List.filter_append, List.map_append]
    have hdf : d.filter (fun i => !i.front.isEmpty) = d := by
      rw [List.filter_eq_self]
      intro a ha
      simpa using dedupe_front_ne incoming (seedSeen existing) a ha
    rw [hdf]
    refine List.Nodup.append hnd (dedupe_keys incoming (seedSeen existing)).1
      ?_
    intro k hk hk2
    exact ((dedupe_keys incoming (seedSeen existing)).2 k hk2).1 hk
  have hsub :
      List.Sublist
        (((reconcile existing incoming cap).filter
          (fun i => !i.front.isEmpty)).map (fun i => norm_key i.front))
        (((existing ++ d).filter (fun i => !i.front.isEmpty)).map
          (fun i => norm_key i.front)) := by
    refine List.Sublist.map _ (List.Sublist.filter _ ?_)
    rw [reconcile, topUpLoop_eq_append, ← hd]
    exact List.take_sublist cap _
  exact hfull.sublist hsub

/-- Witness for C2's nodup-preservation at the §8 example. -/
theorem c2_merge_dedup_witness :
    ((([⟨"hola".data, "hello".data⟩] : List Item).filter
        (fun i => !i.front.isEmpty)).map (fun i => norm_key i.front)).Nodup ∧
    (((reconcile [⟨"hola".data, "hello".data⟩]
          [⟨"Hola".data, "dup".data⟩, ⟨"adios".data, "bye".data⟩] 20).filter
        (fun i => !i.front.isEmpty)).map
      (fun i => norm_key i.front)).Nodup :=
  ⟨by decide,
    (c2_merge_dedup [⟨"hola".data, "hello".data⟩]
      [⟨"Hola".data, "dup".data⟩, ⟨"adios".data, "bye".data⟩] 20).2.1
      (by decide)⟩

/-- C3, counterexample: with cap 1 below the length of the existing list,
the slice `merged[:cap]` evicts existing items: reconcile [a, b] [] 1 is
[a], so the existing item b is dropped, contradicting the claim for
arbitrary caps. -/
theorem c3_counterexample :
    reconcile [itemA, itemB] [] 1 = [itemA] ∧
    itemB ∉ reconcile [itemA, itemB] [] 1 ∧
    ¬ (reconcile [itemA, itemB] [] 1).take 2 = [itemA, itemB] := by
  decide

/-- C3, amended: provided the cap is at least the length of the existing
list, the result has at most cap entries, starts with all existing items
unchanged and in order, and the truncation removes only newly accepted
incoming items from the tail. -/
theorem c3_cap_frame (existing incoming : List Item) (cap : Nat)
    (h : existing.length ≤ cap) :
    (reconcile existing incoming cap).length ≤ cap ∧
    (reconcile existing incoming cap).take existing.length = existing ∧
    reconcile existing incoming cap =
      existing ++
        (dedupe (seedSeen existing) incoming).take
          (cap - existing.length) := by
  have hre : reconcile existing incoming cap =
      (existing ++ dedupe (seedSeen existing) incoming).take cap := by
    rw [reconcile, topUpLoop_eq_append]
  refine ⟨?_, ?_, ?_⟩
  · rw [hre]; exact List.length_take_le cap _
  · rw [hre, List.take_take, Nat.min_eq_left h, List.take_append_eq_append_take,
      List.take_of_length_le (Nat.le_refl _), Nat.sub_self, List.take_zero,
      List.append_nil]
  · rw [hre, List.take_append_eq_append_take, List.take_of_length_le h]

/-- Witness for C3's amended statement at the §8 example lists. -/
theorem c3_cap_frame_witness :
    ([itemA, itemB] : List Item).length ≤ 3 ∧
    ((reconcile [itemA, itemB] [itemC] 3).length ≤ 3 ∧
    (reconcile [itemA, itemB] [itemC] 3).take 2 = [itemA, itemB] ∧
    reconcile [itemA, itemB] [itemC] 3 =
      [itemA, itemB] ++
        (dedupe (seedSeen [itemA, itemB]) [itemC]).take 1) :=
  ⟨by decide, c3_cap_frame [itemA, itemB] [itemC] 3 (by decide)⟩

/-- C6: on a non-empty list of length n, the Next handler sets the index
to (index + 1) mod n and the Previous handler to (index - 1 + n) mod n,
each resetting show_back; for n = 3 from index 0, three Next presses
return to index 0 and one Previous press yields index 2. -/
theorem c6_next_prev_mod (s : SessionState) (h : s.last_items ≠ []) :
    (fc_next s).card_index = (s.card_index + 1) % s.last_items.length ∧
    (fc_next s).show_back = false ∧
    (fc_prev s).card_index =
      (s.card_index + s.last_items.length - 1) % s.last_items.length ∧
    (fc_prev s).show_back = false ∧
    (fc_next (fc_next (fc_next exState3))).card_index = 0 ∧
    (fc_prev exState3).card_index = 2 := by
  have hn : 0 < s.last_items.length := List.length_pos.mpr h
  refine ⟨?_, ?_, ?_, ?_, by decide, by decide⟩
  · simp [fc_next, h]
  · simp [fc_next, h]
  · simp only [fc_prev, if_neg h]
    exact prev_index_eq s.card_index s.last_items.length hn
  · simp [fc_prev, h]

/-- Witness for C6 at the concrete three-item state. -/
theorem c6_next_prev_mod_witness :
    exState3.last_items ≠ [] ∧
    ((fc_next exState3).card_index =
      (exState3.card_index + 1) % exState3.last_items.length ∧
    (fc_next exState3).show_back = false ∧
    (fc_prev exState3).card_index =
      (exState3.card_index + exState3.last_items.length - 1) %
        exState3.last_items.length ∧
    (fc_prev exState3).show_back = false ∧
    (fc_next (fc_next (fc_next exState3))).card_index = 0 ∧
    (fc_prev exState3).card_index = 2) :=
  ⟨by decide, c6_next_prev_mod exState3 (by decide)⟩

/-- C7: clicking the card face performs the same transition as the Flip
button; flip toggles show_back, leaves the index and list unchanged, and
two consecutive flips restore the original state. -/
theorem c7_flip (s : SessionState) :
    fc_card_click s = fc_flip s ∧
    (fc_flip s).card_index = s.card_index ∧
    (fc_flip s).last_items = s.last_items ∧
    (s.last_items ≠ [] → (fc_flip s).show_back = !s.show_back) ∧
    fc_flip (fc_flip s) = s := by
  refine ⟨rfl, ?_, ?_, ?_, ?_⟩
  · unfold fc_flip; split <;> rfl
  · unfold fc_flip; split <;> rfl
  · intro h; simp [fc_flip, h]
  · by_cases h : s.last_items = []
    · simp [fc_flip, h]
    · simp [fc_flip, h]

/-- Witness for C7 at the concrete three-item state. -/
theorem c7_flip_witness :
    fc_card_click exState3 = fc_flip exState3 ∧
    (fc_flip exState3).card_index = exState3.card_index ∧
    (fc_flip exState3).last_items = exState3.last_items ∧
    (exState3.last_items ≠ [] →
      (fc_flip exState3).show_back = !exState3.show_back) ∧
    fc_flip (fc_flip exState3) = exState3 :=
  c7_flip exState3

/-- C8: when the external generator call fails, both the generate action
and the top-up action abort with the single error message
"OpenAI request failed: ..." and leave the whole session state
(last_items, last_meta, card_index, show_back) unchanged. -/
theorem c8_error_no_mutation (s : SessionState) (e : List Char)
    (meta : GenMeta) :
    runGenerate s (Except.error e) meta =
      (s, some ("OpenAI request failed: ".data ++ e)) ∧
    runTopUp s (Except.error e) =
      (s, some ("OpenAI request failed: ".data ++ e)) :=
  ⟨rfl, rfl⟩

/-- C10: removing row i from a list of length n (i < n) yields the
original list with exactly the i-th item deleted, of length n - 1, with
all other items in their original relative order, and resets card_index
to 0 and show_back to false. -/
theorem c10_remove (s : SessionState) (i : Nat)
    (h : i < s.last_items.length) :
    (applyRemove s i).last_items =
      s.last_items.take i ++ s.last_items.drop (i + 1) ∧
    (applyRemove s i).last_items.length = s.last_items.length - 1 ∧
    (applyRemove s i).card_index = 0 ∧
    (applyRemove s i).show_back = false ∧
    (applyRemove s i).last_meta = s.last_meta := by
  refine ⟨List.eraseIdx_eq_take_drop_succ .., ?_, rfl, rfl, rfl⟩
  have := List.eraseIdx_eq_take_drop_succ s.last_items i
  simp only [applyRemove, this, List.length_append, List.length_take,
    List.length_drop]
  omega

/-- Witness for C10: remove index 1 from the three-item state. -/
theorem c10_remove_witness :
    1 < exState3.last_items.length ∧
    ((applyRemove exState3 1).last_items =
      exState3.last_items.take 1 ++ exState3.last_items.drop 2 ∧
    (applyRemove exState3 1).last_items.length =
      exState3.last_items.length - 1 ∧
    (applyRemove exState3 1).card_index = 0 ∧
    (applyRemove exState3 1).show_back = false ∧
    (applyRemove exState3 1).last_meta = exState3.last_meta) :=
  ⟨by decide, c10_remove exState3 1 (by decide)⟩

/-- C4: the normalizer equals trim-lowercase-collapse as the spec words
it, is idempotent, maps a null/absent input to the empty string, and on
the §8 examples gives key("  Hola   Mundo ") = key("hola mundo") =
"hola mundo". -/
theorem c4_norm_key_spec (s : List Char) :
    norm_key s = specKey s ∧
    norm_key (norm_key s) = norm_key s ∧
    norm_keyOpt none = [] ∧
    norm_key "  Hola   Mundo ".data = "hola mundo".data ∧
    norm_key "hola mundo".data = "hola mundo".data :=
  ⟨norm_key_eq_specKey s, norm_key_idem s, rfl, by decide, by decide⟩

/-- C5, counterexample: with items [a, b, c] and card_index 1, removing
row 2 leaves a list of length 2 and the old index 1 is still below that
length, yet the code resets card_index to 0 rather than leaving it
unchanged as the claim states. -/
theorem c5_counterexample :
    (applyRemove { exState3 with card_index := 1 } 2).last_items.length
      = 2 ∧
    ({ exState3 with card_index := 1 } : SessionState).card_index < 2 ∧
    (applyRemove { exState3 with card_index := 1 } 2).card_index ≠
      ({ exState3 with card_index := 1 } : SessionState).card_index := by
  decide

/-- C5, amended: every list-changing action (generation, top-up,
removal) unconditionally resets card_index to 0 and show_back to false,
even when the previous index is still below the new length; only the
flashcards-view clamp is conditional, resetting the index to 0 exactly
when it is out of range and never touching show_back. -/
theorem c5_amended (s : SessionState) (i : Nat) (raw : List Char)
    (meta : GenMeta) :
    (applyRemove s i).card_index = 0 ∧
    (applyRemove s i).show_back = false ∧
    (runTopUp s (Except.ok raw)).1.card_index = 0 ∧
    (runTopUp s (Except.ok raw)).1.show_back = false ∧
    (runGenerate s (Except.ok raw) meta).1.card_index = 0 ∧
    (runGenerate s (Except.ok raw) meta).1.show_back = false ∧
    (flashClamp s).show_back = s.show_back ∧
    (s.last_items ≠ [] → s.last_items.length ≤ s.card_index →
      (flashClamp s).card_index = 0) ∧
    (s.card_index < s.last_items.length → flashClamp s = s) := by
  refine ⟨rfl, rfl, rfl, rfl, rfl, rfl, ?_, ?_, ?_⟩
  · unfold flashClamp; split
    · rfl
    · split <;> rfl
  · intro h1 h2; simp [flashClamp, h1, h2]
  · intro h
    have h1 : s.last_items ≠ [] := by
      intro he; rw [he] at h; simp at h
    have h2 : ¬ s.last_items.length ≤ s.card_index := by omega
    simp [flashClamp, h1, h2]

/-- Witness for C5's amended statement at a concrete state. -/
theorem c5_amended_witness :
    (applyRemove exState3 1).card_index = 0 ∧
    (applyRemove exState3 1).show_back = false ∧
    (runTopUp exState3 (Except.ok "- x — y".data)).1.card_index = 0 ∧
    (runTopUp exState3 (Except.ok "- x — y".data)).1.show_back = false ∧
    (runGenerate exState3 (Except.ok "- x — y".data) exMeta).1.card_index
      = 0 ∧
    (runGenerate exState3 (Except.ok "- x — y".data) exMeta).1.show_back
      = false ∧
    (flashClamp exState3).show_back = exState3.show_back ∧
    (exState3.last_items ≠ [] →
      exState3.last_items.length ≤ exState3.card_index →
      (flashClamp exState3).card_index = 0) ∧
    (exState3.card_index < exState3.last_items.length →
      flashClamp exState3 = exState3) :=
  c5_amended exState3 1 "- x — y".data exMeta

end Palabrazo
